import Mathlib

/-!
Shallow embedding of `safe_learning/lyapunov.py` (the Lyapunov safe-set
engine).  Floating-point scalars are modelled as rationals, NumPy boolean
arrays over the discretization as functions `Fin n → Bool`, value arrays as
`Fin n → ℚ`.  `np.max` over an empty selection raises in NumPy, so it is
modelled as an `Option ℚ` that is `none` exactly on the empty selection, and
an operation that can raise returns `Option`.  The in-place mutation of the
`bound` list performed by `line_search_bisection` is embedded by explicit
state passing: the function returns both its Python return value and the
final contents of the caller's list.
-/

namespace SafeLearning

/-- One step of the `while bound[1] - bound[0] > accuracy` loop of
`line_search_bisection`, iterated with explicit fuel.  The loop halves the
interval each iteration, so any fuel `k` with `(hi - lo) / 2 ^ k ≤ accuracy`
makes the fuelled recursion agree with the Python loop. -/
def bisectAux (f : ℚ → Bool) (accuracy : ℚ) : ℕ → ℚ × ℚ → ℚ × ℚ
  | 0, bound => bound
  | fuel + 1, bound =>
    if bound.2 - bound.1 ≤ accuracy then bound
    else
      let mean := (bound.1 + bound.2) / 2
      if f mean then bisectAux f accuracy fuel (mean, bound.2)
      else bisectAux f accuracy fuel (bound.1, mean)

/-- Fuel sufficient for `bisectAux` to reach `hi - lo ≤ accuracy` whenever
`0 < accuracy` (proved in `bisectFuel_spec`). -/
def bisectFuel (bound : ℚ × ℚ) (accuracy : ℚ) : ℕ :=
  ⌈(bound.2 - bound.1) / accuracy⌉₊

/-- `line_search_bisection(f, bound, accuracy)` from `lyapunov.py`.
The first component is the Python return value (`none` models `return None`),
the second component is the final contents of the caller's `bound` list
(the function mutates the list in place and, when it returns a list, returns
that very list). -/
def line_search_bisection (f : ℚ → Bool) (bound : ℚ × ℚ) (accuracy : ℚ) :
    Option (ℚ × ℚ) × (ℚ × ℚ) :=
  if ¬ f bound.1 then (none, bound)
  else if f bound.2 then (some (bound.2, bound.2), (bound.2, bound.2))
  else
    let r := bisectAux f accuracy (bisectFuel bound accuracy) bound
    (some r, r)

lemma bisectAux_fst_true (f : ℚ → Bool) (accuracy : ℚ) :
    ∀ (fuel : ℕ) (bound : ℚ × ℚ), f bound.1 = true →
      f (bisectAux f accuracy fuel bound).1 = true := by
  intro fuel
  induction fuel with
  | zero => intro bound h; exact h
  | succ k ih =>
    intro bound h
    rw [bisectAux]
    by_cases hgap : bound.2 - bound.1 ≤ accuracy
    · simpa [hgap] using h
    · simp only [hgap, if_false]
      by_cases hm : f ((bound.1 + bound.2) / 2) = true
      · simpa [hm] using ih ((bound.1 + bound.2) / 2, bound.2) hm
      · simp only [Bool.not_eq_true] at hm
        simpa [hm] using ih (bound.1, (bound.1 + bound.2) / 2) h

lemma bisectAux_gap (f : ℚ → Bool) (accuracy : ℚ) :
    ∀ (fuel : ℕ) (bound : ℚ × ℚ), bound.2 - bound.1 ≤ 2 ^ fuel * accuracy →
      (bisectAux f accuracy fuel bound).2 - (bisectAux f accuracy fuel bound).1
        ≤ accuracy := by
  intro fuel
  induction fuel with
  | zero => intro bound h; simpa [bisectAux] using h
  | succ k ih =>
    intro bound h
    rw [bisectAux]
    by_cases hgap : bound.2 - bound.1 ≤ accuracy
    · simp [hgap]
    · simp only [hgap, if_false]
      have hhalf : bound.2 - (bound.1 + bound.2) / 2 ≤ 2 ^ k * accuracy ∧
          (bound.1 + bound.2) / 2 - bound.1 ≤ 2 ^ k * accuracy := by
        constructor <;>
        · rw [show (2 : ℚ) ^ (k + 1) * accuracy = 2 * (2 ^ k * accuracy) by ring] at h
          linarith
      by_cases hm : f ((bound.1 + bound.2) / 2) = true
      · simpa [hm] using ih ((bound.1 + bound.2) / 2, bound.2) hhalf.1
      · simp only [Bool.not_eq_true] at hm
        simpa [hm] using ih (bound.1, (bound.1 + bound.2) / 2) hhalf.2

lemma bisectFuel_spec (bound : ℚ × ℚ) (accuracy : ℚ) (ha : 0 < accuracy) :
    bound.2 - bound.1 ≤ 2 ^ bisectFuel bound accuracy * accuracy := by
  set g : ℚ := bound.2 - bound.1 with hg
  set k : ℕ := bisectFuel bound accuracy with hk
  have hle : g / accuracy ≤ (k : ℚ) := by
    rw [hk, bisectFuel, ← hg]
    exact Nat.le_ceil _
  have hpow : (k : ℚ) ≤ 2 ^ k := by
    exact_mod_cast (Nat.lt_two_pow k).le
  have : g / accuracy ≤ 2 ^ k := hle.trans hpow
  calc g = g / accuracy * accuracy := by field_simp
    _ ≤ 2 ^ k * accuracy := by
        exact mul_le_mul_of_nonneg_right this ha.le

lemma line_search_bisection_fst_none_iff (f : ℚ → Bool) (bound : ℚ × ℚ)
    (accuracy : ℚ) :
    (line_search_bisection f bound accuracy).1 = none ↔ f bound.1 = false := by
  rw [line_search_bisection]
  by_cases h0 : f bound.1 = true
  · by_cases h1 : f bound.2 = true <;> simp [h0, h1]
  · simp only [Bool.not_eq_true] at h0
    simp [h0]

lemma line_search_bisection_fst_some_true (f : ℚ → Bool) (bound : ℚ × ℚ)
    (accuracy : ℚ) (r : ℚ × ℚ)
    (h : (line_search_bisection f bound accuracy).1 = some r) :
    f r.1 = true := by
  rw [line_search_bisection] at h
  by_cases h0 : f bound.1 = true
  · by_cases h1 : f bound.2 = true
    · simp only [h0, h1, not_true, if_false, if_true] at h
      obtain rfl : (bound.2, bound.2) = r := by simpa using h
      exact h1
    · simp only [h0, h1, not_true, if_false, Bool.not_eq_true] at h
      obtain rfl : bisectAux f accuracy (bisectFuel bound accuracy) bound = r := by
        simpa using h
      exact bisectAux_fst_true f accuracy _ bound h0
  · simp only [Bool.not_eq_true] at h0
    simp [h0] at h

lemma line_search_bisection_snd_of_some (f : ℚ → Bool) (bound : ℚ × ℚ)
    (accuracy : ℚ) (r : ℚ × ℚ)
    (h : (line_search_bisection f bound accuracy).1 = some r) :
    (line_search_bisection f bound accuracy).2 = r := by
  rw [line_search_bisection] at h ⊢
  by_cases h0 : f bound.1 = true
  · by_cases h1 : f bound.2 = true
    · simp only [h0, h1, not_true, if_false, if_true] at h ⊢
      simpa using h
    · simp only [h0, h1, not_true, if_false] at h ⊢
      simpa using h
  · simp only [Bool.not_eq_true] at h0
    simp [h0] at h

/-- Combination of two optional minima; `none` plays the role of the initial
`min_value = np.inf` of `smallest_boundary_value`. -/
def optMin : Option ℚ → Option ℚ → Option ℚ
  | none, b => b
  | some a, none => some a
  | some a, some b => some (min a b)

/-- `tf.reduce_min` over the list of values of a (nonempty) tensor; `none` on
the empty list. -/
def reduceMin : List ℚ → Option ℚ
  | [] => none
  | x :: xs =>
    match reduceMin xs with
    | none => some x
    | some y => some (min x y)

/-- `axis[[0, -1]]`: the first and last sample of one coordinate axis. -/
def firstLast (axis : List ℚ) : List ℚ :=
  match axis.head?, axis.getLast? with
  | some a, some b => [a, b]
  | _, _ => []

/-- `tmp = list(discrete_points); tmp[i] = discrete_points[i][[0, -1]]`. -/
def withBoundaryAxis (pts : List (List ℚ)) (i : ℕ) : List (List ℚ) :=
  pts.mapIdx fun j axis => if j = i then firstLast axis else axis

/-- `np.column_stack(np.meshgrid(*tmp, indexing='ij'))`: all points of the
cartesian product of the per-axis sample lists, first axis slowest. -/
def listProd : List (List ℚ) → List (List ℚ)
  | [] => [[]]
  | axis :: rest => axis.flatMap fun x => (listProd rest).map fun p => x :: p

/-- `smallest_boundary_value(fun, discretization)` from `lyapunov.py`:
for each axis pin that axis to its two extreme samples, evaluate `fun` on all
resulting points, and accumulate the minimum across axes. -/
def smallest_boundary_value (f : List ℚ → ℚ) (pts : List (List ℚ)) : Option ℚ :=
  (List.range pts.length).foldl
    (fun min_value i =>
      optMin min_value (reduceMin ((listProd (withBoundaryAxis pts i)).map f)))
    none

/-- The union (with repetitions) over axes `i` of the point sets where axis
`i` is pinned to its first or last sample and all other axes range over their
full sample lists. -/
def boundaryUnion (pts : List (List ℚ)) : List (List ℚ) :=
  (List.range pts.length).flatMap fun i => listProd (withBoundaryAxis pts i)

lemma optMin_none_right (a : Option ℚ) : optMin a none = a := by
  cases a <;> rfl

lemma optMin_assoc (a b c : Option ℚ) :
    optMin (optMin a b) c = optMin a (optMin b c) := by
  cases a <;> cases b <;> cases c <;> simp [optMin, min_assoc]

lemma reduceMin_append (l₁ l₂ : List ℚ) :
    reduceMin (l₁ ++ l₂) = optMin (reduceMin l₁) (reduceMin l₂) := by
  induction l₁ with
  | nil => simp [reduceMin, optMin]
  | cons x xs ih =>
    cases h1 : reduceMin xs <;> cases h2 : reduceMin l₂ <;>
      simp [reduceMin, optMin, ih, h1, h2, min_assoc]

lemma reduceMin_eq_none (l : List ℚ) : reduceMin l = none ↔ l = [] := by
  cases l with
  | nil => simp [reduceMin]
  | cons x xs =>
    simp only [reduceMin]
    cases reduceMin xs <;> simp

lemma reduceMin_mem (l : List ℚ) (m : ℚ) (h : reduceMin l = some m) : m ∈ l := by
  induction l generalizing m with
  | nil => simp [reduceMin] at h
  | cons x xs ih =>
    rw [reduceMin] at h
    cases h' : reduceMin xs with
    | none => rw [h'] at h; simp at h; simp [h]
    | some y =>
      rw [h'] at h
      simp only [Option.some.injEq] at h
      rcases min_choice x y with hxy | hxy
      · simp [← h, hxy]
      · right
        rw [← h, hxy]
        exact ih y h'

lemma reduceMin_le (l : List ℚ) (m : ℚ) (h : reduceMin l = some m) :
    ∀ x ∈ l, m ≤ x := by
  induction l generalizing m with
  | nil => simp [reduceMin] at h
  | cons x xs ih =>
    rw [reduceMin] at h
    cases h' : reduceMin xs with
    | none =>
      rw [h'] at h
      simp only [Option.some.injEq] at h
      rw [reduceMin_eq_none] at h'
      subst h'
      simp [← h]
    | some y =>
      rw [h'] at h
      simp only [Option.some.injEq] at h
      intro z hz
      rcases List.mem_cons.mp hz with rfl | hz
      · rw [← h]; exact min_le_left _ _
      · rw [← h]
        exact le_trans (min_le_right _ _) (ih y h' z hz)

lemma foldl_optMin_boundary (f : List ℚ → ℚ) (pts : List (List ℚ)) :
    ∀ (idxs : List ℕ) (acc : Option ℚ),
      idxs.foldl
        (fun mv i => optMin mv (reduceMin ((listProd (withBoundaryAxis pts i)).map f)))
        acc
      = optMin acc
          (reduceMin ((idxs.flatMap fun i => listProd (withBoundaryAxis pts i)).map f)) := by
  intro idxs
  induction idxs with
  | nil => intro acc; simp [reduceMin, optMin_none_right]
  | cons i is ih =>
    intro acc
    rw [List.foldl_cons, ih, List.flatMap_cons, List.map_append, reduceMin_append,
      optMin_assoc]

/-- `smallest_boundary_value` computes the minimum of `f` over the union of
the per-axis boundary slabs. -/
lemma smallest_boundary_value_eq (f : List ℚ → ℚ) (pts : List (List ℚ)) :
    smallest_boundary_value f pts = reduceMin ((boundaryUnion pts).map f) := by
  rw [smallest_boundary_value, boundaryUnion, foldl_optMin_boundary]
  rfl

/-- `np.max(V[s])`: maximum of `f` over the index selection `s`; NumPy raises
`ValueError` on an empty selection, modelled by `none`. -/
def npMax {n : ℕ} (s : Finset (Fin n)) (f : Fin n → ℚ) : Option ℚ :=
  if h : s.Nonempty then some (s.sup' h f) else none

lemma npMax_eq_none {n : ℕ} (s : Finset (Fin n)) (f : Fin n → ℚ) :
    npMax s f = none ↔ ¬ s.Nonempty := by
  rw [npMax]
  by_cases h : s.Nonempty <;> simp [h]

lemma npMax_eq_some {n : ℕ} {s : Finset (Fin n)} {f : Fin n → ℚ} {m : ℚ}
    (h : npMax s f = some m) : (∃ i ∈ s, f i = m) ∧ ∀ i ∈ s, f i ≤ m := by
  rw [npMax] at h
  by_cases hs : s.Nonempty
  · simp only [hs, dif_pos] at h
    obtain rfl : s.sup' hs f = m := by simpa using h
    exact ⟨Finset.exists_mem_eq_sup' hs f |>.imp fun i hi => ⟨hi.1, hi.2.symm⟩,
      fun i hi => Finset.le_sup' f hi⟩
  · simp [hs] at h

lemma npMax_of_nonempty {n : ℕ} {s : Finset (Fin n)} (hs : s.Nonempty)
    (f : Fin n → ℚ) : npMax s f = some (s.sup' hs f) := by
  simp [npMax, hs]

/-- The state and external collaborators of the `Lyapunov` engine of
`lyapunov.py`.  The discretization has `n` points and is itself of abstract
type `δ`; `P` is the type of policies and `σ` the type of dynamics
predictions.  `dynamics` and `v_decrease_confidence` (abstract in the Python
base class, supplied by a specialization) are fields, as is the abstract
`threshold` property; `V` caches `lyapunov_function(discretization)`. -/
structure Lyapunov (n : ℕ) (δ P σ : Type) where
  discretization : δ
  policy : P
  dynamics : δ → P → σ
  v_decrease_confidence : δ → σ → (Fin n → ℚ) × (Fin n → ℚ)
  threshold : ℚ
  V : Fin n → ℚ
  v_dot_negative : Fin n → Bool
  initial_safe_set : Option (Fin n → Bool)
  cmax : ℚ
  safe_set : Fin n → Bool

namespace Lyapunov

variable {n : ℕ} {δ P σ : Type}

/-- `Lyapunov.v_decrease_bound`: `v_dot + v_dot_error` pointwise. -/
def v_decrease_bound (e : Lyapunov n δ P σ) (states : δ) (next_states : σ) :
    Fin n → ℚ :=
  fun i => (e.v_decrease_confidence states next_states).1 i
    + (e.v_decrease_confidence states next_states).2 i

/-- `Lyapunov._levelset_is_safe(c)`: `np.all(self.v_dot_negative[self.V <= c])`. -/
def levelset_is_safe (e : Lyapunov n δ P σ) (c : ℚ) : Bool :=
  decide (∀ i, e.V i ≤ c → e.v_dot_negative i = true)

/-- The interval actually searched by `max_safe_levelset`: the caller's
interval when given, else `[0, np.max(V) + accuracy]` (`none` when the
default `np.max(V)` raises on an empty discretization). -/
def searchInterval (e : Lyapunov n δ P σ) (accuracy : ℚ) :
    Option (ℚ × ℚ) → Option (ℚ × ℚ)
  | some interval => some interval
  | none => (npMax Finset.univ e.V).map fun m => ((0 : ℚ), m + accuracy)

/-- `Lyapunov.max_safe_levelset(accuracy, interval)`; `none` models an
uncaught exception (empty `np.max` selection). -/
def max_safe_levelset (e : Lyapunov n δ P σ) (accuracy : ℚ)
    (interval : Option (ℚ × ℚ)) : Option ℚ :=
  match e.searchInterval accuracy interval with
  | none => none
  | some iv =>
    match (line_search_bisection (e.levelset_is_safe) iv accuracy).1 with
    | none => some 0
    | some bound => npMax (Finset.univ.filter fun i => e.V i ≤ bound.1) e.V

/-- The contents of the caller's `interval` list after
`max_safe_levelset(accuracy, interval)` returns: the list is handed to
`line_search_bisection`, which refines it in place. -/
def max_safe_levelset_final_interval (e : Lyapunov n δ P σ) (accuracy : ℚ)
    (interval : ℚ × ℚ) : ℚ × ℚ :=
  (line_search_bisection (e.levelset_is_safe) interval accuracy).2

/-- `Lyapunov.safety_constraint(policy, include_initial)`. -/
def safety_constraint (e : Lyapunov n δ P σ) (policy : P)
    (include_initial : Bool) : Fin n → Bool :=
  let prediction := e.dynamics e.discretization policy
  let v_dot_bound := e.v_decrease_bound e.discretization prediction
  fun i =>
    decide (v_dot_bound i < e.threshold) ||
      (include_initial &&
        match e.initial_safe_set with
        | some s => s i
        | none => false)

/-- `Lyapunov.update_safe_set(accuracy, interval)`: recompute
`v_dot_negative`, then `cmax`, then `safe_set = (V <= cmax)`; `none` when
`max_safe_levelset` raises. -/
def update_safe_set (e : Lyapunov n δ P σ) (accuracy : ℚ)
    (interval : Option (ℚ × ℚ)) : Option (Lyapunov n δ P σ) :=
  let e₁ := { e with v_dot_negative := e.safety_constraint e.policy true }
  match e₁.max_safe_levelset accuracy interval with
  | none => none
  | some c =>
    some { e₁ with cmax := c, safe_set := fun i => decide (e₁.V i ≤ c) }

end Lyapunov

/-- The `next_states` argument of `v_decrease_confidence`: either a plain
array of predicted next states, or (for uncertain dynamics) a pair of the
predicted mean next states and per-dimension error bounds (`d` state
dimensions). -/
inductive Prediction (α : Type) (n d : ℕ) where
  | deterministic (next_states : Fin n → α)
  | uncertain (next_states : Fin n → α) (error_bounds : Fin n → Fin d → ℚ)

namespace LyapunovDiscrete

/-- `LyapunovDiscrete.v_decrease_confidence(states, next_states)`:
finite-difference mean `V(next) - V(cur)`; error bound
`lipschitz_lyapunov * np.sum(error_bounds, axis=1)` when error bounds are
supplied, else `0`. -/
def v_decrease_confidence {α : Type} {n d : ℕ} (lyapunov_function : α → ℚ)
    (lipschitz_lyapunov : ℚ) (states : Fin n → α)
    (next_states : Prediction α n d) : (Fin n → ℚ) × (Fin n → ℚ) :=
  match next_states with
  | .deterministic ns =>
    (fun i => lyapunov_function (ns i) - lyapunov_function (states i),
     fun _ => 0)
  | .uncertain ns error_bounds =>
    (fun i => lyapunov_function (ns i) - lyapunov_function (states i),
     fun i => lipschitz_lyapunov * ∑ j, error_bounds i j)

end LyapunovDiscrete

/-- The predicate of the line-search unit test: `x < 0.5`, true below the
threshold and false above. -/
def halfPred : ℚ → Bool := fun x => decide (x < 1/2)

/-- Engine over a one-point discretization: the single point has `V = 0` and
a decrease bound of `0` that fails the threshold `-1`, with no initial safe
set, so the level-set search is infeasible already at `c = 0`. -/
def badEngine : Lyapunov 1 Unit Unit Unit where
  discretization := ()
  policy := ()
  dynamics := fun _ _ => ()
  v_decrease_confidence := fun _ _ => (fun _ => 0, fun _ => 0)
  threshold := -1
  V := fun _ => 0
  v_dot_negative := fun _ => false
  initial_safe_set := none
  cmax := 0
  safe_set := fun _ => false

/-- Engine over a one-point discretization whose single point satisfies the
decrease condition (`0 < threshold = 1`). -/
def goodEngine : Lyapunov 1 Unit Unit Unit where
  discretization := ()
  policy := ()
  dynamics := fun _ _ => ()
  v_decrease_confidence := fun _ _ => (fun _ => 0, fun _ => 0)
  threshold := 1
  V := fun _ => 0
  v_dot_negative := fun _ => true
  initial_safe_set := none
  cmax := 0
  safe_set := fun _ => false

/-- Engine whose single point has strictly positive `V = 1` and no decrease
certificate anywhere. -/
def posEngine : Lyapunov 1 Unit Unit Unit where
  discretization := ()
  policy := ()
  dynamics := fun _ _ => ()
  v_decrease_confidence := fun _ _ => (fun _ => 0, fun _ => 0)
  threshold := -1
  V := fun _ => 1
  v_dot_negative := fun _ => false
  initial_safe_set := none
  cmax := 0
  safe_set := fun _ => false

/-- The state after `badEngine.update_safe_set(1)`. -/
def updatedBad : Option (Lyapunov 1 Unit Unit Unit) :=
  badEngine.update_safe_set 1 none

/-- The state after `goodEngine.update_safe_set(1)` (the update succeeds). -/
def goodAfter : Lyapunov 1 Unit Unit Unit :=
  (goodEngine.update_safe_set 1 none).getD goodEngine

/-- The test function of `test_smallest_boundary_value`:
`2 * tf.reduce_sum(tf.abs(x), axis=1)`. -/
def exampleFun : List ℚ → ℚ := fun x => 2 * (x.map fun v => |v|).sum

/-- The per-axis sample lists of `GridWorld([[-1.5, 1], [-1, 1.5]], [3, 3])`. -/
def exampleGrid : List (List ℚ) := [[-3/2, -1/4, 1], [-1, 1/4, 3/2]]

namespace Lyapunov

variable {n : ℕ} {δ P σ : Type}

lemma levelset_is_safe_true_iff (e : Lyapunov n δ P σ) (c : ℚ) :
    e.levelset_is_safe c = true ↔ ∀ i, e.V i ≤ c → e.v_dot_negative i = true := by
  simp [levelset_is_safe]

lemma npMax_filter_safe (e : Lyapunov n δ P σ) (bnd c : ℚ)
    (hf : e.levelset_is_safe bnd = true)
    (h : npMax (Finset.univ.filter fun i => e.V i ≤ bnd) e.V = some c) :
    ∀ i, e.V i ≤ c → e.v_dot_negative i = true := by
  obtain ⟨⟨i₀, hi₀, hv₀⟩, -⟩ := npMax_eq_some h
  have hc : c ≤ bnd := by
    rw [← hv₀]
    exact (Finset.mem_filter.mp hi₀).2
  intro i hi
  exact (levelset_is_safe_true_iff e bnd).mp hf i (hi.trans hc)

lemma max_safe_levelset_unfold (e : Lyapunov n δ P σ) (accuracy : ℚ)
    (interval : Option (ℚ × ℚ)) (iv : ℚ × ℚ)
    (hiv : e.searchInterval accuracy interval = some iv) :
    e.max_safe_levelset accuracy interval =
      match (line_search_bisection (e.levelset_is_safe) iv accuracy).1 with
      | none => some 0
      | some bound => npMax (Finset.univ.filter fun i => e.V i ≤ bound.1) e.V := by
  rw [max_safe_levelset, hiv]

lemma max_safe_levelset_none_of_searchInterval (e : Lyapunov n δ P σ)
    (accuracy : ℚ) (interval : Option (ℚ × ℚ))
    (hiv : e.searchInterval accuracy interval = none) :
    e.max_safe_levelset accuracy interval = none := by
  rw [max_safe_levelset, hiv]

lemma max_safe_levelset_some_cases (e : Lyapunov n δ P σ) (accuracy : ℚ)
    (interval : Option (ℚ × ℚ)) (c : ℚ)
    (h : e.max_safe_levelset accuracy interval = some c) :
    c = 0 ∨ ∃ iv bound,
      e.searchInterval accuracy interval = some iv ∧
      (line_search_bisection (e.levelset_is_safe) iv accuracy).1 = some bound ∧
      npMax (Finset.univ.filter fun i => e.V i ≤ bound.1) e.V = some c := by
  cases hiv : e.searchInterval accuracy interval with
  | none =>
    rw [max_safe_levelset_none_of_searchInterval e accuracy interval hiv] at h
    exact absurd h (by simp)
  | some iv =>
    rw [max_safe_levelset_unfold e accuracy interval iv hiv] at h
    cases hb : (line_search_bisection (e.levelset_is_safe) iv accuracy).1 with
    | none =>
      rw [hb] at h
      left
      simpa using h.symm
    | some bound =>
      rw [hb] at h
      exact Or.inr ⟨iv, bound, rfl, hb, h⟩

lemma max_safe_levelset_safe_or_zero (e : Lyapunov n δ P σ) (accuracy : ℚ)
    (interval : Option (ℚ × ℚ)) (c : ℚ)
    (h : e.max_safe_levelset accuracy interval = some c) :
    c = 0 ∨ ∀ i, e.V i ≤ c → e.v_dot_negative i = true := by
  rcases max_safe_levelset_some_cases e accuracy interval c h with
    hc | ⟨iv, bound, hiv, hb, hmax⟩
  · exact Or.inl hc
  · exact Or.inr (npMax_filter_safe e bound.1 c
      (line_search_bisection_fst_some_true _ _ _ _ hb) hmax)

lemma max_safe_levelset_feasible_safe (e : Lyapunov n δ P σ) (accuracy : ℚ)
    (interval : Option (ℚ × ℚ)) (iv : ℚ × ℚ) (c : ℚ)
    (hiv : e.searchInterval accuracy interval = some iv)
    (hfeas : e.levelset_is_safe iv.1 = true)
    (h : e.max_safe_levelset accuracy interval = some c) :
    ∀ i, e.V i ≤ c → e.v_dot_negative i = true := by
  rw [max_safe_levelset_unfold e accuracy interval iv hiv] at h
  cases hb : (line_search_bisection (e.levelset_is_safe) iv accuracy).1 with
  | none =>
    rw [line_search_bisection_fst_none_iff] at hb
    rw [hfeas] at hb
    exact absurd hb (by simp)
  | some bound =>
    rw [hb] at h
    exact npMax_filter_safe e bound.1 c
      (line_search_bisection_fst_some_true _ _ _ _ hb) h

lemma update_safe_set_eq_some (e e' : Lyapunov n δ P σ) (accuracy : ℚ)
    (interval : Option (ℚ × ℚ))
    (h : e.update_safe_set accuracy interval = some e') :
    ∃ c, ({ e with v_dot_negative := e.safety_constraint e.policy true }
            : Lyapunov n δ P σ).max_safe_levelset accuracy interval = some c ∧
      e' = { e with v_dot_negative := e.safety_constraint e.policy true,
                    cmax := c,
                    safe_set := fun i => decide (e.V i ≤ c) } := by
  rw [update_safe_set] at h
  cases hms : ({ e with v_dot_negative := e.safety_constraint e.policy true }
      : Lyapunov n δ P σ).max_safe_levelset accuracy interval with
  | none => rw [hms] at h; exact absurd h (by simp)
  | some c =>
    rw [hms] at h
    exact ⟨c, rfl, by simpa using h.symm⟩

end Lyapunov

/-- Claim C1, counterexample: the claimed invariant is false as stated.
`badEngine.update_safe_set(1)` completes (no exception), and afterwards the
single grid point lies in `safe_set` with `V 0 ≤ cmax`, yet
`v_dot_negative 0 = false`: the infeasible line search produced `cmax = 0`
without certifying the decrease condition on `{V ≤ 0}`. -/
theorem update_safe_set_cmax_uncovered_cex :
    (updatedBad.map fun e => e.safe_set 0) = some true ∧
    (updatedBad.map fun e => decide (e.V 0 ≤ e.cmax)) = some true ∧
    (updatedBad.map fun e => e.v_dot_negative 0) = some false :=
  ⟨by with_unfolding_all decide, by with_unfolding_all decide,
    by with_unfolding_all decide⟩

/-- Claim C1 (amended): after any call to `update_safe_set` that completes,
`safe_set = {i : V i ≤ cmax}`, every point of the initial safe set (when one
was supplied) has `v_dot_negative = true`, and every point with `V ≤ cmax`
has `v_dot_negative = true` unless the level-set search was infeasible, in
which case `cmax = 0`. -/
theorem update_safe_set_invariant_amended {n : ℕ} {δ P σ : Type}
    (e e' : Lyapunov n δ P σ) (accuracy : ℚ) (interval : Option (ℚ × ℚ))
    (h : e.update_safe_set accuracy interval = some e') :
    (∀ i, e'.safe_set i = decide (e'.V i ≤ e'.cmax)) ∧
    (∀ s i, e.initial_safe_set = some s → s i = true →
      e'.v_dot_negative i = true) ∧
    ((∀ i, e'.V i ≤ e'.cmax → e'.v_dot_negative i = true) ∨ e'.cmax = 0) := by
  obtain ⟨c, hms, he'⟩ :=
    Lyapunov.update_safe_set_eq_some e e' accuracy interval h
  subst he'
  refine ⟨fun i => rfl, ?_, ?_⟩
  · intro s i hs hsi
    show e.safety_constraint e.policy true i = true
    rw [Lyapunov.safety_constraint]
    simp [hs, hsi]
  · rcases Lyapunov.max_safe_levelset_safe_or_zero _ accuracy interval c hms with
      hc | hsafe
    · exact Or.inr hc
    · exact Or.inl hsafe

/-- Claim C1, witness: a successful update on `goodEngine` satisfying
the amended invariant. -/
theorem update_safe_set_invariant_amended_witness :
    (∀ i, goodAfter.safe_set i = decide (goodAfter.V i ≤ goodAfter.cmax)) ∧
    (∀ s i, goodEngine.initial_safe_set = some s → s i = true →
      goodAfter.v_dot_negative i = true) ∧
    ((∀ i, goodAfter.V i ≤ goodAfter.cmax → goodAfter.v_dot_negative i = true) ∨
      goodAfter.cmax = 0) :=
  update_safe_set_invariant_amended goodEngine goodAfter 1 none
    (by with_unfolding_all rfl)

/-- Claim C2, counterexample: with the default interval and the infeasible
configuration of `badEngine` (`V = [0]`, `v_dot_negative = [false]`),
`max_safe_levelset` returns `c = 0` although the point `0` has `V ≤ c` and
`v_dot_negative = false`. -/
theorem max_safe_levelset_unsafe_zero_cex :
    badEngine.max_safe_levelset 1 none = some 0 ∧
    badEngine.V 0 ≤ 0 ∧ badEngine.v_dot_negative 0 = false :=
  ⟨by with_unfolding_all decide, by with_unfolding_all decide,
    by with_unfolding_all decide⟩

/-- Claim C2 (amended): whenever the level-set predicate holds at the lower
end of the searched interval (the supplied interval, or the default
`[0, max(V) + accuracy]`), a value `c` returned by `max_safe_levelset` admits
no index `i` with `V i ≤ c` and `v_dot_negative i = false`. -/
theorem max_safe_levelset_safe_amended {n : ℕ} {δ P σ : Type}
    (e : Lyapunov n δ P σ) (accuracy : ℚ) (interval : Option (ℚ × ℚ))
    (iv : ℚ × ℚ) (c : ℚ)
    (hiv : e.searchInterval accuracy interval = some iv)
    (hfeas : e.levelset_is_safe iv.1 = true)
    (hc : e.max_safe_levelset accuracy interval = some c) :
    ¬ ∃ i, e.V i ≤ c ∧ e.v_dot_negative i = false := by
  rintro ⟨i, hvi, hfi⟩
  rw [Lyapunov.max_safe_levelset_feasible_safe e accuracy interval iv c hiv
    hfeas hc i hvi] at hfi
  exact Bool.noConfusion hfi

/-- Claim C2, witness: the feasible search on `goodEngine` returns `c = 0`
and no point with `V ≤ 0` lacks the decrease certificate. -/
theorem max_safe_levelset_safe_amended_witness :
    ¬ ∃ i, goodEngine.V i ≤ 0 ∧ goodEngine.v_dot_negative i = false :=
  max_safe_levelset_safe_amended goodEngine 1 none (0, 1) 0
    (by with_unfolding_all decide) (by with_unfolding_all decide)
    (by with_unfolding_all decide)

/-- Claim C3 (confirmed): for a monotone predicate `f` on `[lo, hi]` and
accuracy `a > 0`, `line_search_bisection` returns an absent result when
`f lo` is false, the collapsed interval `[hi, hi]` when `f hi` is true, and
otherwise an interval `[lo', hi']` with `f lo' = true` and
`hi' - lo' ≤ a`. -/
theorem line_search_bisection_contract (f : ℚ → Bool) (lo hi accuracy : ℚ)
    (hmono : ∀ x y : ℚ, x ≤ y → f y = true → f x = true)
    (hlh : lo ≤ hi) (ha : 0 < accuracy) :
    (f lo = false → (line_search_bisection f (lo, hi) accuracy).1 = none) ∧
    (f hi = true →
      (line_search_bisection f (lo, hi) accuracy).1 = some (hi, hi)) ∧
    (f lo = true → f hi = false →
      ∃ lo' hi', (line_search_bisection f (lo, hi) accuracy).1 = some (lo', hi') ∧
        f lo' = true ∧ hi' - lo' ≤ accuracy) := by
  refine ⟨?_, ?_, ?_⟩
  · intro h0
    exact (line_search_bisection_fst_none_iff f (lo, hi) accuracy).mpr h0
  · intro h1
    have h0 : f lo = true := hmono lo hi hlh h1
    rw [line_search_bisection]
    simp [h0, h1]
  · intro h0 h1
    refine ⟨(bisectAux f accuracy (bisectFuel (lo, hi) accuracy) (lo, hi)).1,
      (bisectAux f accuracy (bisectFuel (lo, hi) accuracy) (lo, hi)).2,
      ?_, ?_, ?_⟩
    · rw [line_search_bisection]
      simp [h0, h1]
    · exact bisectAux_fst_true f accuracy _ (lo, hi) h0
    · exact bisectAux_gap f accuracy _ (lo, hi)
        (bisectFuel_spec (lo, hi) accuracy ha)

/-- Claim C3, witness: the contract instantiated at the unit-test predicate
`x < 1/2` on `[0, 1]` with accuracy `1/4`. -/
theorem line_search_bisection_contract_witness :
    (halfPred 0 = false →
      (line_search_bisection halfPred (0, 1) (1/4)).1 = none) ∧
    (halfPred 1 = true →
      (line_search_bisection halfPred (0, 1) (1/4)).1 = some (1, 1)) ∧
    (halfPred 0 = true → halfPred 1 = false →
      ∃ lo' hi', (line_search_bisection halfPred (0, 1) (1/4)).1 = some (lo', hi') ∧
        halfPred lo' = true ∧ hi' - lo' ≤ 1/4) :=
  line_search_bisection_contract halfPred 0 1 (1/4)
    (fun x y hxy hy => by
      simp only [halfPred, decide_eq_true_eq] at hy ⊢
      exact lt_of_le_of_lt hxy hy)
    (by norm_num) (by norm_num)

/-- Claim C4 (confirmed): the level-set predicate is monotone: for
`c₁ ≤ c₂`, `_levelset_is_safe(c₂)` true implies `_levelset_is_safe(c₁)`
true, for any fixed `v_dot_negative` and `V`. -/
theorem levelset_is_safe_monotone {n : ℕ} {δ P σ : Type} (e : Lyapunov n δ P σ)
    (c₁ c₂ : ℚ) (h₁₂ : c₁ ≤ c₂) (h₂ : e.levelset_is_safe c₂ = true) :
    e.levelset_is_safe c₁ = true := by
  rw [Lyapunov.levelset_is_safe_true_iff] at h₂ ⊢
  exact fun i hi => h₂ i (hi.trans h₁₂)

/-- Claim C4, witness: monotonicity applied to `goodEngine` at `0 ≤ 1`. -/
theorem levelset_is_safe_monotone_witness :
    goodEngine.levelset_is_safe 0 = true :=
  levelset_is_safe_monotone goodEngine 0 1 (by norm_num)
    (by with_unfolding_all decide)

/-- Claim C5 (confirmed): `safety_constraint(policy, include_initial)` marks
point `i` true iff its decrease bound is strictly below the threshold, or
`include_initial` holds and `i` belongs to the (present) initial safe set —
in particular an initial-safe-set point is marked true even when its numeric
bound fails the strict comparison. -/
theorem safety_constraint_spec {n : ℕ} {δ P σ : Type} (e : Lyapunov n δ P σ)
    (policy : P) (include_initial : Bool) (i : Fin n) :
    e.safety_constraint policy include_initial i = true ↔
      (e.v_decrease_bound e.discretization (e.dynamics e.discretization policy) i
          < e.threshold ∨
        (include_initial = true ∧
          ∃ s, e.initial_safe_set = some s ∧ s i = true)) := by
  rw [Lyapunov.safety_constraint]
  cases include_initial <;> cases hs : e.initial_safe_set <;>
    simp [Lyapunov.v_decrease_bound, hs]

/-- Claim C6 (confirmed): the discrete-time `v_decrease_confidence` returns
mean `V(next) - V(cur)` pointwise in both cases; the error is
`lipschitz_lyapunov` times the per-point sum of the error bounds over the
state dimensions when bounds are supplied, and exactly `0` otherwise. -/
theorem v_decrease_confidence_discrete_spec {α : Type} {n d : ℕ}
    (lyapunov_function : α → ℚ) (lipschitz_lyapunov : ℚ)
    (states next_states : Fin n → α) (error_bounds : Fin n → Fin d → ℚ)
    (i : Fin n) :
    ((LyapunovDiscrete.v_decrease_confidence lyapunov_function lipschitz_lyapunov
        states (Prediction.deterministic next_states : Prediction α n d)).1 i
      = lyapunov_function (next_states i) - lyapunov_function (states i)) ∧
    ((LyapunovDiscrete.v_decrease_confidence lyapunov_function lipschitz_lyapunov
        states (Prediction.deterministic next_states : Prediction α n d)).2 i = 0) ∧
    ((LyapunovDiscrete.v_decrease_confidence lyapunov_function lipschitz_lyapunov
        states (Prediction.uncertain next_states error_bounds)).1 i
      = lyapunov_function (next_states i) - lyapunov_function (states i)) ∧
    ((LyapunovDiscrete.v_decrease_confidence lyapunov_function lipschitz_lyapunov
        states (Prediction.uncertain next_states error_bounds)).2 i
      = lipschitz_lyapunov * ∑ j, error_bounds i j) :=
  ⟨rfl, rfl, rfl, rfl⟩

/-- Claim C7 (confirmed): when `smallest_boundary_value` returns a value `m`,
`m` is attained by `fun` at a point of the union over axes of the boundary
slabs, and is a lower bound of `fun` over that union — it is the minimum of
`fun` over the grid boundary. -/
theorem smallest_boundary_value_min (f : List ℚ → ℚ) (pts : List (List ℚ))
    (m : ℚ) (h : smallest_boundary_value f pts = some m) :
    (∃ p ∈ boundaryUnion pts, f p = m) ∧ ∀ p ∈ boundaryUnion pts, m ≤ f p := by
  rw [smallest_boundary_value_eq] at h
  constructor
  · obtain ⟨p, hp, hfp⟩ := List.mem_map.mp (reduceMin_mem _ _ h)
    exact ⟨p, hp, hfp⟩
  · intro p hp
    exact reduceMin_le _ _ h (f p) (List.mem_map_of_mem f hp)

/-- Claim C7, witness: on the 3×3 grid spanning `[-1.5, 1] × [-1, 1.5]` with
`f(x) = 2·Σ|x|`, the boundary minimum is `5/2 = 2.5`. -/
theorem smallest_boundary_value_min_witness :
    smallest_boundary_value exampleFun exampleGrid = some (5/2) ∧
    ((∃ p ∈ boundaryUnion exampleGrid, exampleFun p = 5/2) ∧
      ∀ p ∈ boundaryUnion exampleGrid, 5/2 ≤ exampleFun p) :=
  ⟨by with_unfolding_all decide,
    smallest_boundary_value_min exampleFun exampleGrid (5/2)
      (by with_unfolding_all decide)⟩

/-- Claim C8 (confirmed): when the predicate fails at the interval's lower
end the bisection signals infeasibility by an absent result (not an
exception), and `max_safe_levelset` then returns `0` rather than raising. -/
theorem infeasible_returns_zero {n : ℕ} {δ P σ : Type} (e : Lyapunov n δ P σ)
    (f : ℚ → Bool) (b : ℚ × ℚ) (a accuracy : ℚ) (interval : Option (ℚ × ℚ))
    (iv : ℚ × ℚ) (hf : f b.1 = false)
    (hiv : e.searchInterval accuracy interval = some iv)
    (hinf : e.levelset_is_safe iv.1 = false) :
    (line_search_bisection f b a).1 = none ∧
    e.max_safe_levelset accuracy interval = some 0 := by
  refine ⟨(line_search_bisection_fst_none_iff f b a).mpr hf, ?_⟩
  rw [Lyapunov.max_safe_levelset_unfold e accuracy interval iv hiv,
    (line_search_bisection_fst_none_iff (e.levelset_is_safe) iv accuracy).mpr hinf]

/-- Claim C8, witness: `x < 1/2` is false at the lower end of `[1, 2]`, and
`badEngine`'s infeasible search yields `max_safe_levelset = 0`. -/
theorem infeasible_returns_zero_witness :
    (line_search_bisection halfPred (1, 2) 1).1 = none ∧
    badEngine.max_safe_levelset 1 none = some 0 :=
  infeasible_returns_zero badEngine halfPred (1, 2) 1 1 none (0, 1)
    (by with_unfolding_all decide) (by with_unfolding_all decide)
    (by with_unfolding_all decide)

/-- Claim C9 (confirmed): `_levelset_is_safe(c)` is vacuously true when no
grid point has `V ≤ c`; consequently, when every `V` value is strictly
positive, no point has the decrease certificate, and the accuracy is
positive, the line search succeeds at the default lower bound `0` and
`max_safe_levelset` then takes `np.max` of an empty selection, failing with
an error (`none`) instead of returning a value. -/
theorem empty_levelset_error {n : ℕ} {δ P σ : Type} (e : Lyapunov n δ P σ)
    (c accuracy : ℚ) (hn : 0 < n)
    (hc : ∀ i, ¬ e.V i ≤ c) (hpos : ∀ i, 0 < e.V i)
    (hneg : ∀ i, e.v_dot_negative i = false) (ha : 0 < accuracy) :
    e.levelset_is_safe c = true ∧ e.max_safe_levelset accuracy none = none := by
  have hvac : ∀ b : ℚ, (∀ i, ¬ e.V i ≤ b) → e.levelset_is_safe b = true := by
    intro b hb
    rw [Lyapunov.levelset_is_safe_true_iff]
    exact fun i hi => absurd hi (hb i)
  refine ⟨hvac c hc, ?_⟩
  have hne : (Finset.univ : Finset (Fin n)).Nonempty :=
    ⟨⟨0, hn⟩, Finset.mem_univ _⟩
  have hM : npMax Finset.univ e.V = some (Finset.univ.sup' hne e.V) :=
    npMax_of_nonempty hne e.V
  set M : ℚ := Finset.univ.sup' hne e.V with hMdef
  have hiv : e.searchInterval accuracy none = some (0, M + accuracy) := by
    show (npMax Finset.univ e.V).map (fun m => ((0 : ℚ), m + accuracy))
      = some (0, M + accuracy)
    rw [hM]
    rfl
  have hf0 : e.levelset_is_safe 0 = true :=
    hvac 0 fun i => not_le.mpr (hpos i)
  have hfhi : e.levelset_is_safe (M + accuracy) = false := by
    have hle : e.V ⟨0, hn⟩ ≤ M + accuracy := by
      have h2 : e.V ⟨0, hn⟩ ≤ M := Finset.le_sup' e.V (Finset.mem_univ _)
      linarith
    by_contra hcon
    rw [Bool.not_eq_false] at hcon
    have h1 := (Lyapunov.levelset_is_safe_true_iff e (M + accuracy)).mp hcon
      ⟨0, hn⟩ hle
    rw [hneg ⟨0, hn⟩] at h1
    exact Bool.noConfusion h1
  rw [Lyapunov.max_safe_levelset_unfold e accuracy none (0, M + accuracy) hiv]
  have hlsb : (line_search_bisection (e.levelset_is_safe) (0, M + accuracy)
      accuracy).1 = some (bisectAux (e.levelset_is_safe) accuracy
        (bisectFuel (0, M + accuracy) accuracy) (0, M + accuracy)) := by
    rw [line_search_bisection]
    simp [hf0, hfhi]
  rw [hlsb]
  show npMax (Finset.univ.filter fun i =>
      e.V i ≤ (bisectAux (e.levelset_is_safe) accuracy
        (bisectFuel (0, M + accuracy) accuracy) (0, M + accuracy)).1) e.V = none
  have hr1 : e.levelset_is_safe (bisectAux (e.levelset_is_safe) accuracy
      (bisectFuel (0, M + accuracy) accuracy) (0, M + accuracy)).1 = true :=
    bisectAux_fst_true _ _ _ _ hf0
  rw [npMax_eq_none]
  rintro ⟨i, hi⟩
  have hvi := (Finset.mem_filter.mp hi).2
  have h3 := (Lyapunov.levelset_is_safe_true_iff e _).mp hr1 i hvi
  rw [hneg i] at h3
  exact Bool.noConfusion h3

/-- Claim C9, witness: `posEngine` (`V = [1]`, no certificates) has a
vacuously safe empty sub-level set at `0`, and `max_safe_levelset 1` raises
(`none`). -/
theorem empty_levelset_error_witness :
    posEngine.levelset_is_safe 0 = true ∧
    posEngine.max_safe_levelset 1 none = none :=
  empty_levelset_error posEngine 0 1 (by norm_num)
    (by with_unfolding_all decide) (by with_unfolding_all decide)
    (by with_unfolding_all decide) (by norm_num)

/-- Claim C10 (confirmed, modulo the state-passing embedding of the in-place
mutation): when the line search returns an interval, the contents of the
caller's interval list after `max_safe_levelset(accuracy, interval)` are
exactly the refined (or collapsed) bounds the search returned — the returned
list is the caller's own, mutated in place. -/
theorem final_interval_eq_result {n : ℕ} {δ P σ : Type} (e : Lyapunov n δ P σ)
    (accuracy : ℚ) (interval r : ℚ × ℚ)
    (h : (line_search_bisection (e.levelset_is_safe) interval accuracy).1
      = some r) :
    e.max_safe_levelset_final_interval accuracy interval = r :=
  line_search_bisection_snd_of_some _ _ _ _ h

/-- Claim C10, witness: on `goodEngine` with interval `[0, 1]` the search
collapses the interval to `[1, 1]`, and that is what the caller's list holds
after the call. -/
theorem final_interval_eq_result_witness :
    goodEngine.max_safe_levelset_final_interval 1 (0, 1) = (1, 1) :=
  final_interval_eq_result goodEngine 1 (0, 1) (1, 1)
    (by with_unfolding_all decide)

end SafeLearning
